import Mathlib

set_option maxRecDepth 10000

/-!
Shallow embedding of the rustychess chess engine (board representation,
move generation, static evaluation, minimax search with alpha-beta pruning,
and the game state machine), together with theorems checking the
natural-language specification against it.

The embedding follows `src/chess/position.rs`, `src/chess/board.rs`,
`src/chess/engine.rs` and `src/chess/game.rs`.  The repository's
`src/chess/mod.rs` declares a `piece` module whose file is absent from the
sources, and `game.rs` references `Board::move_piece` and a `ChessEngine`
type that are defined nowhere in the sources; those few definitions are
modelled from the spec and are marked as such in their doc comments.
Everything else is translated directly from the Rust source.
-/

/-- Modelled from the spec (the repository's `piece.rs` is missing from the
sources): piece colors White and Black. -/
inductive Color where
  | White : Color
  | Black : Color
deriving DecidableEq, Repr

/-- Modelled from the spec: the opposite color (`Color::opposite`, used by
`engine.rs` and `game.rs`). -/
def Color.opposite : Color → Color
  | Color.White => Color.Black
  | Color.Black => Color.White

/-- Modelled from the spec (missing `piece.rs`): the six chess piece kinds. -/
inductive PieceType where
  | Pawn : PieceType
  | Knight : PieceType
  | Bishop : PieceType
  | Rook : PieceType
  | Queen : PieceType
  | King : PieceType
deriving DecidableEq, Repr

/-- Modelled from the spec (missing `piece.rs`): a piece is a (type, color)
pair, an immutable value type. -/
structure Piece where
  piece_type : PieceType
  color : Color
deriving DecidableEq, Repr

/-- Modelled from the spec (missing `piece.rs`): `Piece::new`. -/
def Piece.new (t : PieceType) (c : Color) : Piece := ⟨t, c⟩

/-- Modelled from the spec (missing `piece.rs`): `Piece::is_king`, used by
`game.rs`. -/
def Piece.is_king (p : Piece) : Bool := p.piece_type = PieceType.King

/-- Error type from `src/error.rs` (`ChessError`). -/
inductive ChessError where
  | InvalidMove : String → ChessError
  | InvalidPosition : String → ChessError
  | GameOver : String → ChessError
  | Internal : String → ChessError
deriving DecidableEq, Repr

/-- Board coordinate from `src/chess/position.rs`: `file` 0..7 maps to
files a..h, `rank` 0..7 maps to ranks 1..8.  The Rust fields are `u8`;
they are embedded as `Nat` (all arithmetic producing them is guarded by
bounds checks in the source). -/
structure Position where
  file : Nat
  rank : Nat
deriving DecidableEq, Repr

/-- `Position::new`: the unchecked internal constructor. -/
def Position.new (file rank : Nat) : Position := ⟨file, rank⟩

/-- `Position::is_valid`: both coordinates at most 7. -/
def Position.is_valid (p : Position) : Prop := p.file ≤ 7 ∧ p.rank ≤ 7

instance (p : Position) : Decidable p.is_valid := by
  unfold Position.is_valid
  infer_instance

/-- `Position::to_algebraic`: file 0 maps to 'a', rank 0 maps to '1'. -/
def Position.to_algebraic (p : Position) : Char × Char :=
  (Char.ofNat (97 + p.file), Char.ofNat (49 + p.rank))

/-- `Position::to_string` (the `Display` impl): the two algebraic characters. -/
def Position.to_string (p : Position) : String :=
  String.mk [(p.to_algebraic).1, (p.to_algebraic).2]

/-- `Position::create`: the checked constructor, failing with
`InvalidPosition` when either coordinate exceeds 7. -/
def Position.create (file rank : Nat) : Except ChessError Position :=
  if file > 7 ∨ rank > 7 then
    Except.error (ChessError.InvalidPosition "File and rank must be between 0-7")
  else
    Except.ok ⟨file, rank⟩

/-- `Position::from_algebraic`: fails with `InvalidPosition` when the file
character is outside 'a'..'h' or the rank character outside '1'..'8'. -/
def Position.from_algebraic (file_char rank_char : Char) : Except ChessError Position :=
  if ¬(('a' ≤ file_char ∧ file_char ≤ 'h') ∧ ('1' ≤ rank_char ∧ rank_char ≤ '8')) then
    Except.error (ChessError.InvalidPosition
      ("Invalid algebraic coordinates: " ++ String.mk [file_char, rank_char]))
  else
    Except.ok ⟨file_char.toNat - 97, rank_char.toNat - 49⟩

/-- The board from `src/chess/board.rs`: an 8x8 array of optional pieces,
indexed as `squares[rank][file]`. -/
structure Board where
  squares : Fin 8 → Fin 8 → Option Piece

/-- The back-rank piece layout written by `Board::setup_back_rank`:
rooks on files 0 and 7, knights on 1 and 6, bishops on 2 and 5, the queen
on file 3 and the king on file 4. -/
def back_rank_piece (file : Nat) : PieceType :=
  if file = 0 ∨ file = 7 then PieceType.Rook
  else if file = 1 ∨ file = 6 then PieceType.Knight
  else if file = 2 ∨ file = 5 then PieceType.Bishop
  else if file = 3 then PieceType.Queen
  else PieceType.King

/-- `Board::new` / `setup_initial_position`: pawns on ranks 1 (White) and 6
(Black), back ranks 0 (White) and 7 (Black), every other square empty. -/
def Board.new : Board :=
  ⟨fun r f =>
    if r.val = 1 then some (Piece.new PieceType.Pawn Color.White)
    else if r.val = 6 then some (Piece.new PieceType.Pawn Color.Black)
    else if r.val = 0 then some (Piece.new (back_rank_piece f.val) Color.White)
    else if r.val = 7 then some (Piece.new (back_rank_piece f.val) Color.Black)
    else none⟩

/-- `Board::get_piece`: the lenient read.  Returns `none` (with no error)
for an out-of-range position, and the stored square contents otherwise. -/
def Board.get_piece (b : Board) (pos : Position) : Option Piece :=
  if h : pos.is_valid then
    b.squares ⟨pos.rank, Nat.lt_succ_of_le h.2⟩ ⟨pos.file, Nat.lt_succ_of_le h.1⟩
  else
    none

/-- `Board::set_piece`: the strict write.  Fails with `InvalidPosition` for
an out-of-range position, otherwise stores the given optional piece. -/
def Board.set_piece (b : Board) (pos : Position) (piece : Option Piece) :
    Except ChessError Board :=
  if pos.is_valid then
    Except.ok ⟨fun r f =>
      if r.val = pos.rank ∧ f.val = pos.file then piece else b.squares r f⟩
  else
    Except.error (ChessError.InvalidPosition ("Invalid position: " ++ pos.to_string))

/-- `Board::make_move` (the relocation operation): validates both
positions, fails with `InvalidMove` when no piece occupies `from`, and
otherwise clears `from` and writes the moved piece to `to`, discarding any
previous occupant of `to`. -/
def Board.make_move (b : Board) (from_ to_ : Position) : Except ChessError Board :=
  if ¬from_.is_valid then
    Except.error (ChessError.InvalidPosition ("Invalid from position: " ++ from_.to_string))
  else if ¬to_.is_valid then
    Except.error (ChessError.InvalidPosition ("Invalid to position: " ++ to_.to_string))
  else
    match b.get_piece from_ with
    | none => Except.error (ChessError.InvalidMove ("No piece at position " ++ from_.to_string))
    | some piece =>
      (b.set_piece from_ none).bind fun b1 => b1.set_piece to_ (some piece)

/-- A move from `src/chess/engine.rs` (`ChessMove`): endpoints plus a
scratch `score` field used during search.  The Rust field `from` is a Lean
keyword, so the endpoint fields are named `from_` and `to_`. -/
structure ChessMove where
  from_ : Position
  to_ : Position
  score : Int
deriving DecidableEq, Repr

/-- `ChessMove::new`: a move with score 0. -/
def ChessMove.new (from_ to_ : Position) : ChessMove := ⟨from_, to_, 0⟩

/-- Piece values from `engine.rs` (`PAWN_VALUE` .. `KING_VALUE`). -/
def PAWN_VALUE : Int := 100

def KNIGHT_VALUE : Int := 320

def BISHOP_VALUE : Int := 330

def ROOK_VALUE : Int := 500

def QUEEN_VALUE : Int := 900

def KING_VALUE : Int := 20000

def CENTER_CONTROL_BONUS : Int := 10

def DEVELOPED_PIECE_BONUS : Int := 15

/-- The 8 direction vectors from `engine.rs` (`DIRECTIONS`), as
(rank-delta, file-delta) pairs: the first four are the rook directions,
the last four the bishop directions. -/
def DIRECTIONS : List (Int × Int) :=
  [(1, 0), (-1, 0), (0, 1), (0, -1), (1, 1), (1, -1), (-1, 1), (-1, -1)]

/-- The 8 knight offsets from `engine.rs` (`KNIGHT_MOVES`). -/
def KNIGHT_MOVES : List (Int × Int) :=
  [(2, 1), (2, -1), (-2, 1), (-2, -1), (1, 2), (1, -2), (-1, 2), (-1, -2)]

/-- `Engine::generate_pawn_moves`: one square forward onto an empty square
(direction +1 for White, -1 for Black); additionally two squares forward
from the home rank (1 for White, 6 for Black) when both squares are empty;
diagonal captures one rank forward onto enemy-occupied squares.  Moves are
produced in the source's push order: forward, double, then captures with
file offset -1 before +1. -/
def generate_pawn_moves (b : Board) (from_ : Position) (piece : Piece) : List ChessMove :=
  let direction : Int := if piece.color = Color.White then 1 else -1
  let new_rank : Int := (from_.rank : Int) + direction
  let forward :=
    if 0 ≤ new_rank ∧ new_rank < 8 then
      let dest := Position.new from_.file new_rank.toNat
      if b.get_piece dest = none then
        ChessMove.new from_ dest ::
          (if (piece.color = Color.White ∧ from_.rank = 1) ∨
              (piece.color = Color.Black ∧ from_.rank = 6) then
            let double_new_rank : Int := (from_.rank : Int) + 2 * direction
            if 0 ≤ double_new_rank ∧ double_new_rank < 8 then
              let double_to := Position.new from_.file double_new_rank.toNat
              if b.get_piece double_to = none then [ChessMove.new from_ double_to] else []
            else []
          else [])
      else []
    else []
  let captures :=
    if 0 ≤ new_rank ∧ new_rank < 8 then
      List.flatten (([-1, 1] : List Int).map fun file_offset =>
        let new_file : Int := (from_.file : Int) + file_offset
        if 0 ≤ new_file ∧ new_file < 8 then
          let dest := Position.new new_file.toNat new_rank.toNat
          match b.get_piece dest with
          | some target => if target.color ≠ piece.color then [ChessMove.new from_ dest] else []
          | none => []
        else [])
    else []
  forward ++ captures

/-- A single stepping target shared by the knight and king generators:
inside the board, the destination must be empty or hold an enemy piece. -/
def step_move (b : Board) (from_ : Position) (piece : Piece) (dr df : Int) : List ChessMove :=
  let to_rank : Int := (from_.rank : Int) + dr
  let to_file : Int := (from_.file : Int) + df
  if 0 ≤ to_rank ∧ to_rank < 8 ∧ 0 ≤ to_file ∧ to_file < 8 then
    let dest := Position.new to_file.toNat to_rank.toNat
    match b.get_piece dest with
    | some target => if target.color ≠ piece.color then [ChessMove.new from_ dest] else []
    | none => [ChessMove.new from_ dest]
  else []

/-- `Engine::generate_knight_moves`: the 8 knight offsets, each a single
step. -/
def generate_knight_moves (b : Board) (from_ : Position) (piece : Piece) : List ChessMove :=
  List.flatten (KNIGHT_MOVES.map fun d => step_move b from_ piece d.1 d.2)

/-- The body of the sliding loop in `Engine::generate_sliding_moves`,
with explicit fuel standing in for the Rust `while` loop.  Starting from an
on-board square and stepping by a nonzero direction vector with components
in {-1,0,1}, the loop leaves the board after at most 7 in-bounds steps, so
fuel 8 makes the embedding exhaustive. -/
def slide_moves (b : Board) (from_ : Position) (piece : Piece) (dr df : Int) :
    Nat → Int → Int → List ChessMove
  | 0, _, _ => []
  | fuel + 1, to_rank, to_file =>
    if 0 ≤ to_rank ∧ to_rank < 8 ∧ 0 ≤ to_file ∧ to_file < 8 then
      let dest := Position.new to_file.toNat to_rank.toNat
      match b.get_piece dest with
      | some target =>
        if target.color ≠ piece.color then [ChessMove.new from_ dest] else []
      | none =>
        ChessMove.new from_ dest :: slide_moves b from_ piece dr df fuel (to_rank + dr) (to_file + df)
    else []

/-- `Engine::generate_sliding_moves`: slide in direction (dr, df) until the
board edge, stopping before a friendly piece and on an enemy piece
(inclusive capture). -/
def generate_sliding_moves (b : Board) (from_ : Position) (piece : Piece) (dr df : Int) :
    List ChessMove :=
  slide_moves b from_ piece dr df 8 ((from_.rank : Int) + dr) ((from_.file : Int) + df)

/-- `Engine::generate_bishop_moves`: the last four direction vectors
(diagonals). -/
def generate_bishop_moves (b : Board) (from_ : Position) (piece : Piece) : List ChessMove :=
  List.flatten ((DIRECTIONS.drop 4).map fun d => generate_sliding_moves b from_ piece d.1 d.2)

/-- `Engine::generate_rook_moves`: the first four direction vectors
(orthogonals). -/
def generate_rook_moves (b : Board) (from_ : Position) (piece : Piece) : List ChessMove :=
  List.flatten ((DIRECTIONS.take 4).map fun d => generate_sliding_moves b from_ piece d.1 d.2)

/-- `Engine::generate_queen_moves`: all eight direction vectors. -/
def generate_queen_moves (b : Board) (from_ : Position) (piece : Piece) : List ChessMove :=
  List.flatten (DIRECTIONS.map fun d => generate_sliding_moves b from_ piece d.1 d.2)

/-- `Engine::generate_king_moves`: all eight direction vectors, one step
each. -/
def generate_king_moves (b : Board) (from_ : Position) (piece : Piece) : List ChessMove :=
  List.flatten (DIRECTIONS.map fun d => step_move b from_ piece d.1 d.2)

/-- Per-piece dispatch inside `Engine::generate_moves`. -/
def piece_moves (b : Board) (from_ : Position) (piece : Piece) : List ChessMove :=
  match piece.piece_type with
  | PieceType.Pawn => generate_pawn_moves b from_ piece
  | PieceType.Knight => generate_knight_moves b from_ piece
  | PieceType.Bishop => generate_bishop_moves b from_ piece
  | PieceType.Rook => generate_rook_moves b from_ piece
  | PieceType.Queen => generate_queen_moves b from_ piece
  | PieceType.King => generate_king_moves b from_ piece

/-- `Engine::generate_moves`: scan all 64 squares rank-major (rank outer,
file inner), and for each piece of the given color append its per-type
pseudo-legal moves.  The Rust function wraps the vector in `Ok`
unconditionally; the embedding returns the list directly. -/
def generate_moves (b : Board) (color : Color) : List ChessMove :=
  List.flatten ((List.range 8).map fun rank =>
    List.flatten ((List.range 8).map fun file =>
      let from_ := Position.new file rank
      match b.get_piece from_ with
      | some piece => if piece.color = color then piece_moves b from_ piece else []
      | none => []))

/-- The contribution of one square to `Engine::evaluate_board`, with the
source's exact branch structure: signed material value, the center-control
bonus for files 3/4 crossed with ranks 3/4, and the development bonus for
knights and bishops off their color's home rank (the source phrases the
development condition through the perspective color, which coincides with
the piece's color in the first branch and with its opposite in the
second). -/
def square_score (color : Color) (file rank : Nat) (sq : Option Piece) : Int :=
  match sq with
  | none => 0
  | some piece =>
    let piece_value :=
      match piece.piece_type with
      | PieceType.Pawn => PAWN_VALUE
      | PieceType.Knight => KNIGHT_VALUE
      | PieceType.Bishop => BISHOP_VALUE
      | PieceType.Rook => ROOK_VALUE
      | PieceType.Queen => QUEEN_VALUE
      | PieceType.King => KING_VALUE
    if piece.color = color then
      piece_value
        + (if (file = 3 ∨ file = 4) ∧ (rank = 3 ∨ rank = 4) then CENTER_CONTROL_BONUS else 0)
        + (if (piece.piece_type = PieceType.Knight ∨ piece.piece_type = PieceType.Bishop) ∧
              ((color = Color.White ∧ rank > 0) ∨ (color = Color.Black ∧ rank < 7)) then
            DEVELOPED_PIECE_BONUS else 0)
    else
      -piece_value
        - (if (file = 3 ∨ file = 4) ∧ (rank = 3 ∨ rank = 4) then CENTER_CONTROL_BONUS else 0)
        - (if (piece.piece_type = PieceType.Knight ∨ piece.piece_type = PieceType.Bishop) ∧
              ((color = Color.Black ∧ rank > 0) ∨ (color = Color.White ∧ rank < 7)) then
            DEVELOPED_PIECE_BONUS else 0)

/-- `Engine::evaluate_board`: the sum of the per-square contributions over
all 64 squares (rank outer, file inner, matching the source loop). -/
def evaluate_board (b : Board) (color : Color) : Int :=
  (((List.range 8).map fun rank =>
    (((List.range 8).map fun file =>
      square_score color file rank (b.get_piece (Position.new file rank))).sum)).sum)

/-- The i32 minimum, used by the search as the initial best score. -/
def I32_MIN : Int := -2147483648

/-- The i32 maximum. -/
def I32_MAX : Int := 2147483647

/-- The u32 modulus for the `nodes_searched` counter. -/
def U32_MOD : Nat := 4294967296

/-- The maximizing loop of `Engine::minimax` (the `color == White` branch):
fold over the move list carrying `max_score`, `alpha` and the node
counter; a move whose relocation fails is skipped (`continue`), and after
updating `alpha` the remaining moves are abandoned when `beta <= alpha`.
The recursive evaluation of a child is abstracted as `f`. -/
def ab_max_loop (f : Board → Int → Int → Nat → Int × Nat) (b : Board) (beta : Int) :
    List ChessMove → Int → Int → Nat → Int × Nat
  | [], max_score, _, n => (max_score, n)
  | m :: rest, max_score, alpha, n =>
    match b.make_move m.from_ m.to_ with
    | Except.error _ => ab_max_loop f b beta rest max_score alpha n
    | Except.ok b2 =>
      let sn := f b2 alpha beta n
      let max_score2 := max max_score sn.1
      let alpha2 := max alpha sn.1
      if beta ≤ alpha2 then (max_score2, sn.2)
      else ab_max_loop f b beta rest max_score2 alpha2 sn.2

/-- The minimizing loop of `Engine::minimax` (the `color == Black` branch):
symmetric to `ab_max_loop`, carrying `min_score` and `beta` with `alpha`
fixed. -/
def ab_min_loop (f : Board → Int → Int → Nat → Int × Nat) (b : Board) (alpha : Int) :
    List ChessMove → Int → Int → Nat → Int × Nat
  | [], min_score, _, n => (min_score, n)
  | m :: rest, min_score, beta, n =>
    match b.make_move m.from_ m.to_ with
    | Except.error _ => ab_min_loop f b alpha rest min_score beta n
    | Except.ok b2 =>
      let sn := f b2 alpha beta n
      let min_score2 := min min_score sn.1
      let beta2 := min beta sn.1
      if beta2 ≤ alpha then (min_score2, sn.2)
      else ab_min_loop f b alpha rest min_score2 beta2 sn.2

/-- `Engine::minimax`: increments the node counter, evaluates statically at
depth 0 or when no moves are generated, and otherwise maximizes (White)
updating `alpha` or minimizes (Black) updating `beta`, abandoning the
remaining moves of a node when `beta <= alpha`.  White recurses into Black
and vice versa, both at `depth - 1` without negation.  The first result
component is the returned score, the second the updated `nodes_searched`
counter. -/
def minimax (b : Board) (depth : Nat) (alpha beta : Int) (color : Color) (n : Nat) :
    Int × Nat :=
  let n1 := (n + 1) % U32_MOD
  match depth with
  | 0 => (evaluate_board b color, n1)
  | Nat.succ d =>
    let moves := generate_moves b color
    if moves = [] then (evaluate_board b color, n1)
    else
      match color with
      | Color.White =>
        ab_max_loop (fun b2 a2 b3 n2 => minimax b2 d a2 b3 Color.Black n2)
          b beta moves I32_MIN alpha n1
      | Color.Black =>
        ab_min_loop (fun b2 a2 b3 n2 => minimax b2 d a2 b3 Color.White n2)
          b alpha moves I32_MAX beta n1

/-- The maximizing loop of `minimax` with the alpha-beta cutoff removed:
with the `beta <= alpha` early exit gone, the `alpha`/`beta` updates no
longer influence anything, so the fold reduces to a running maximum over
the successfully relocated children. -/
def plain_max_loop (f : Board → Int) (b : Board) : List ChessMove → Int → Int
  | [], max_score => max_score
  | m :: rest, max_score =>
    match b.make_move m.from_ m.to_ with
    | Except.error _ => plain_max_loop f b rest max_score
    | Except.ok b2 => plain_max_loop f b rest (max max_score (f b2))

/-- The minimizing loop of `minimax` with the alpha-beta cutoff removed. -/
def plain_min_loop (f : Board → Int) (b : Board) : List ChessMove → Int → Int
  | [], min_score => min_score
  | m :: rest, min_score =>
    match b.make_move m.from_ m.to_ with
    | Except.error _ => plain_min_loop f b rest min_score
    | Except.ok b2 => plain_min_loop f b rest (min min_score (f b2))

/-- `Engine::minimax` with the alpha-beta cutoff (`if beta <= alpha
{ break; }`) removed: the identical recursion, in which the now-dead
`alpha`/`beta` window and the write-only node counter are dropped. -/
def minimax_no_ab (b : Board) (depth : Nat) (color : Color) : Int :=
  match depth with
  | 0 => evaluate_board b color
  | Nat.succ d =>
    let moves := generate_moves b color
    if moves = [] then evaluate_board b color
    else
      match color with
      | Color.White =>
        plain_max_loop (fun b2 => minimax_no_ab b2 d Color.Black) b moves I32_MIN
      | Color.Black =>
        plain_min_loop (fun b2 => minimax_no_ab b2 d Color.White) b moves I32_MAX

/-- The engine state from `engine.rs`: search depth, node counter and the
debug flag (which only controls printing). -/
structure Engine where
  depth : Nat
  nodes_searched : Nat
  debug : Bool
deriving Repr

/-- `Engine::new`: fresh engine at the given depth. -/
def Engine.new (depth : Nat) : Engine := ⟨depth, 0, false⟩

/-- The candidate loop of `Engine::find_best_move`: each move is applied to
a copy of the board (skipping it if relocation fails), scored as the
negation of `minimax` at `depth - 1` for the opponent over the window
`(i32::MIN + 1, i32::MAX - 1)`, and retained (with its score stored in the
move) when the score strictly exceeds the best so far. -/
def find_best_loop (dm : Nat) (color : Color) (b : Board) :
    List ChessMove → Option ChessMove → Int → Nat → Option ChessMove × Int × Nat
  | [], best_move, best_score, n => (best_move, best_score, n)
  | m :: rest, best_move, best_score, n =>
    match b.make_move m.from_ m.to_ with
    | Except.error _ => find_best_loop dm color b rest best_move best_score n
    | Except.ok b2 =>
      let sn := minimax b2 dm (I32_MIN + 1) (I32_MAX - 1) color.opposite n
      let score := -sn.1
      if score > best_score then
        find_best_loop dm color b rest (some ⟨m.from_, m.to_, score⟩) score sn.2
      else
        find_best_loop dm color b rest best_move best_score sn.2

/-- The result-assembling core of `Engine::find_best_move`, parametrized by
the search depth (the counter starts from the reset value 0). -/
def find_best_core (depth : Nat) (b : Board) (color : Color) :
    Except ChessError ChessMove × Nat :=
  let moves := generate_moves b color
  if moves = [] then
    (Except.error (ChessError.InvalidMove "No legal moves available"), 0)
  else
    let r := find_best_loop (depth - 1) color b moves none I32_MIN 0
    match r.1 with
    | some mv => (Except.ok mv, r.2.2)
    | none => (Except.error (ChessError.InvalidMove "No valid moves found"), r.2.2)

/-- Game status from `src/chess/game.rs` (`GameStatus`). -/
inductive GameStatus where
  | InProgress : GameStatus
  | Check : GameStatus
  | Checkmate : GameStatus
  | Stalemate : GameStatus
  | Draw : GameStatus
deriving DecidableEq, Repr

/-- Modelled from the spec: the `ChessEngine` type stored in `Game` is
referenced by `game.rs` but defined nowhere in the sources; the spec says
the game delegates move generation to the engine, whose generation is the
pseudo-legal `generate_moves`.  It carries no state that `game.rs` reads. -/
structure ChessEngine where

/-- Modelled from the spec: `ChessEngine::new`. -/
def ChessEngine.new : ChessEngine := ⟨⟩

/-- Modelled from the spec: `ChessEngine::get_legal_moves` as used by
`Game::make_move` — the engine's pseudo-legal move generation (the
in-source `Engine::get_legal_moves` wraps `generate_moves` the same way). -/
def ChessEngine.get_legal_moves (_ : ChessEngine) (b : Board) (color : Color) :
    Except ChessError (List ChessMove) :=
  Except.ok (generate_moves b color)

/-- Modelled from the spec: `Board::move_piece` is called by
`Game::make_move` but missing from the sources; the spec's relocation
operation (`relocate(from, to)`) is `Board::make_move`, here applied to
the move's endpoints. -/
def Board.move_piece (b : Board) (m : ChessMove) : Except ChessError Board :=
  b.make_move m.from_ m.to_

/-- The game state from `src/chess/game.rs`. -/
structure Game where
  board : Board
  current_turn : Color
  status : GameStatus
  move_history : List String
  engine : ChessEngine

/-- `Game::new`: initial board, White to move, `InProgress`, empty
history. -/
def Game.new : Game :=
  ⟨Board.new, Color.White, GameStatus.InProgress, [], ChessEngine.new⟩

/-- `Game::make_move`: fails with `InvalidMove` when no piece sits at the
move's source, fails with `InvalidMove` ("Not your turn") when that
piece's color differs from `current_turn`, fails with `InvalidMove`
("Illegal move") when the move is not among the generated pseudo-legal
moves, and otherwise relocates on the board via `Board::move_piece`
(propagating its failure) and flips `current_turn`.  It does not touch
`move_history` or `status`. -/
def Game.make_move (g : Game) (chess_move : ChessMove) : Except ChessError Game :=
  match g.board.get_piece chess_move.from_ with
  | none => Except.error (ChessError.InvalidMove "No piece at source position")
  | some current_piece =>
    if current_piece.color ≠ g.current_turn then
      Except.error (ChessError.InvalidMove "Not your turn")
    else
      match g.engine.get_legal_moves g.board g.current_turn with
      | Except.error e => Except.error e
      | Except.ok legal_moves =>
        if chess_move ∉ legal_moves then
          Except.error (ChessError.InvalidMove "Illegal move")
        else
          match g.board.move_piece chess_move with
          | Except.error e => Except.error e
          | Except.ok b2 =>
            Except.ok ⟨b2, g.current_turn.opposite, g.status, g.move_history, g.engine⟩

/-- `Engine::find_best_move`: resets `nodes_searched` to 0, generates all
pseudo-legal moves for `game.current_turn` on `game.board` (failing with
`InvalidMove` when there are none), scores every applicable candidate as
the negated `minimax` value of the resulting board, and returns the first
strictly-best move, together with the engine carrying the updated node
counter.  The result depends only on the engine's `depth` and the game. -/
def Engine.find_best_move (e : Engine) (game : Game) :
    Except ChessError ChessMove × Engine :=
  let r := find_best_core e.depth game.board game.current_turn
  (r.1, ⟨e.depth, r.2, e.debug⟩)

instance {α β : Type} [DecidableEq α] [DecidableEq β] : DecidableEq (Except α β)
  | Except.error a, Except.error b => decidable_of_iff (a = b) (by simp)
  | Except.error _, Except.ok _ => isFalse (fun h => Except.noConfusion h)
  | Except.ok _, Except.error _ => isFalse (fun h => Except.noConfusion h)
  | Except.ok a, Except.ok b => decidable_of_iff (a = b) (by simp)

deriving instance Fintype for Color

deriving instance Fintype for PieceType

deriving instance Fintype for Piece

/-- The home rank of a color's back-rank pieces: rank 0 for White, rank 7
for Black (spec wording for the development bonus). -/
def home_rank : Color → Nat
  | Color.White => 0
  | Color.Black => 7

/-- Per-square evaluation following the spec's words (for comparison with
`square_score`): signed material value — positive for the perspective
color's pieces, negative for the opponent's — plus a center-control bonus
of the same sign for the four central squares (files d/e crossed with
ranks 4/5, i.e. indices 3/4), plus a development bonus of the same sign
for each knight or bishop not on its color's home rank. -/
def square_score_spec (color : Color) (file rank : Nat) (sq : Option Piece) : Int :=
  match sq with
  | none => 0
  | some piece =>
    let material : Int :=
      match piece.piece_type with
      | PieceType.Pawn => 100
      | PieceType.Knight => 320
      | PieceType.Bishop => 330
      | PieceType.Rook => 500
      | PieceType.Queen => 900
      | PieceType.King => 20000
    let sign : Int := if piece.color = color then 1 else -1
    sign * (material
      + (if (file = 3 ∨ file = 4) ∧ (rank = 3 ∨ rank = 4) then 10 else 0)
      + (if (piece.piece_type = PieceType.Knight ∨ piece.piece_type = PieceType.Bishop) ∧
            rank ≠ home_rank piece.color then 15 else 0))

/-- Whole-board evaluation following the spec's words: the sum of
`square_score_spec` over all 64 squares. -/
def evaluate_board_spec (b : Board) (color : Color) : Int :=
  (((List.range 8).map fun rank =>
    (((List.range 8).map fun file =>
      square_score_spec color file rank (b.get_piece (Position.new file rank))).sum)).sum)

/-- A small test position: a White pawn on b4, a Black pawn on a5 and the
Black king on h8, White to move.  White's only pseudo-legal moves are the
push b4-b5 and the capture b4xa5. -/
def cex_board : Board :=
  ⟨fun r f =>
    if r.val = 3 ∧ f.val = 1 then some (Piece.new PieceType.Pawn Color.White)
    else if r.val = 4 ∧ f.val = 0 then some (Piece.new PieceType.Pawn Color.Black)
    else if r.val = 7 ∧ f.val = 7 then some (Piece.new PieceType.King Color.Black)
    else none⟩

/-- The test position above packaged as a `Game` with White to move. -/
def cex_game : Game :=
  ⟨cex_board, Color.White, GameStatus.InProgress, [], ChessEngine.new⟩

/-- C9: for every file and rank both at most 7, `Position::create`
succeeds, and converting the resulting position to algebraic characters
and back yields the same position. -/
theorem c9_position_roundtrip (file rank : Nat) (hf : file ≤ 7) (hr : rank ≤ 7) :
    ∃ p : Position, Position.create file rank = Except.ok p ∧
      Position.from_algebraic p.to_algebraic.1 p.to_algebraic.2 = Except.ok p := by
  have key : ∀ f, f < 8 → ∀ r, r < 8 →
      Position.create f r = Except.ok (Position.new f r) ∧
      Position.from_algebraic (Position.to_algebraic (Position.new f r)).1
        (Position.to_algebraic (Position.new f r)).2 = Except.ok (Position.new f r) := by
    decide
  exact ⟨Position.new file rank,
    (key file (by omega) rank (by omega)).1,
    (key file (by omega) rank (by omega)).2⟩

/-- Witness for C9 at file 4, rank 1 (square e2). -/
theorem c9_witness :
    ∃ p : Position, Position.create 4 1 = Except.ok p ∧
      Position.from_algebraic p.to_algebraic.1 p.to_algebraic.2 = Except.ok p :=
  c9_position_roundtrip 4 1 (by decide) (by decide)

/-- C7: out-of-range reads via `get_piece` return `none` without error
while out-of-range writes via `set_piece` fail with `InvalidPosition`
(and, the operation being modelled as returning a new board only on
success, the caller's board is untouched on failure); in-range writes
succeed and the written contents are what a subsequent read returns. -/
theorem c7_get_lenient_set_strict (b : Board) (pos : Position) (piece : Option Piece) :
    (¬pos.is_valid →
      b.get_piece pos = none ∧
      b.set_piece pos piece =
        Except.error (ChessError.InvalidPosition ("Invalid position: " ++ pos.to_string))) ∧
    (pos.is_valid →
      ∃ b2, b.set_piece pos piece = Except.ok b2 ∧ b2.get_piece pos = piece) := by
  constructor
  · intro h
    constructor
    · simp [Board.get_piece, h]
    · simp [Board.set_piece, h]
  · intro h
    refine ⟨⟨fun r f => if r.val = pos.rank ∧ f.val = pos.file then piece else b.squares r f⟩,
      ?_, ?_⟩
    · simp [Board.set_piece, h]
    · simp [Board.get_piece, h]

/-- Witness for C7: the out-of-range position (9, 0) and the in-range
position e2 on the initial board. -/
theorem c7_witness :
    (Board.new.get_piece (Position.new 9 0) = none ∧
      Board.new.set_piece (Position.new 9 0) none =
        Except.error (ChessError.InvalidPosition
          ("Invalid position: " ++ (Position.new 9 0).to_string))) ∧
    (∃ b2, Board.new.set_piece (Position.new 4 4) (some (Piece.new PieceType.Queen Color.White)) =
        Except.ok b2 ∧ b2.get_piece (Position.new 4 4) =
          some (Piece.new PieceType.Queen Color.White)) :=
  ⟨(c7_get_lenient_set_strict Board.new (Position.new 9 0) none).1 (by decide),
   (c7_get_lenient_set_strict Board.new (Position.new 4 4)
      (some (Piece.new PieceType.Queen Color.White))).2 (by decide)⟩

/-- C5: for in-range endpoints, `Board::make_move` fails with
`InvalidMove` when no piece occupies the source; otherwise it clears the
source, writes the moved piece to the destination (discarding any previous
occupant) and leaves every other square unchanged; and applying it twice
from the initial position — e2 to e4, then e4 to e5 — leaves e2 and e4
empty and a White pawn on e5. -/
theorem c5_relocation (b : Board) (from_ to_ : Position)
    (hf : from_.is_valid) (ht : to_.is_valid) :
    (b.get_piece from_ = none →
      b.make_move from_ to_ =
        Except.error (ChessError.InvalidMove ("No piece at position " ++ from_.to_string))) ∧
    (∀ piece, b.get_piece from_ = some piece →
      ∃ b2, b.make_move from_ to_ = Except.ok b2 ∧
        b2.get_piece to_ = some piece ∧
        (from_ ≠ to_ → b2.get_piece from_ = none) ∧
        (∀ q : Position, q ≠ from_ → q ≠ to_ → b2.get_piece q = b.get_piece q)) ∧
    (((Board.new.make_move (Position.new 4 1) (Position.new 4 3)).bind fun b1 =>
        b1.make_move (Position.new 4 3) (Position.new 4 4)).map (fun b2 =>
        (b2.get_piece (Position.new 4 1), b2.get_piece (Position.new 4 3),
          b2.get_piece (Position.new 4 4))) =
      Except.ok (none, none, some (Piece.new PieceType.Pawn Color.White))) := by
  obtain ⟨ff, fr⟩ := from_
  obtain ⟨tf, tr⟩ := to_
  refine ⟨?_, ?_, by decide⟩
  · intro hnone
    simp [Board.make_move, hf, ht, hnone]
  · intro piece hsome
    simp only [Board.make_move, hf, ht, not_true_eq_false, if_false, hsome]
    refine ⟨⟨fun r f =>
      if r.val = tr ∧ f.val = tf then some piece
      else if r.val = fr ∧ f.val = ff then none
      else b.squares r f⟩, ?_, ?_, ?_, ?_⟩
    · simp [Board.set_piece, hf, ht, Except.bind]
    · simp only [Board.get_piece, ht, dif_pos]
      simp
    · intro hne
      have : ¬(fr = tr ∧ ff = tf) := by
        intro hc
        exact hne (by simp [Position.mk.injEq, hc.1, hc.2])
      simp only [Board.get_piece, hf, dif_pos]
      simp only [this]
      simp [this]
    · intro q hqf hqt
      obtain ⟨qf, qr⟩ := q
      by_cases hqv : (Position.mk qf qr).is_valid
      · have h1 : ¬(qr = tr ∧ qf = tf) := by
          intro hc
          exact hqt (by simp [Position.mk.injEq, hc.1, hc.2])
        have h2 : ¬(qr = fr ∧ qf = ff) := by
          intro hc
          exact hqf (by simp [Position.mk.injEq, hc.1, hc.2])
        simp only [Board.get_piece, hqv, dif_pos]
        simp [h1, h2]
      · simp [Board.get_piece, hqv]

/-- Witness for C5 on the initial board with source e2 and destination
e4. -/
theorem c5_witness :
    (Board.new.get_piece (Position.new 4 1) = none →
      Board.new.make_move (Position.new 4 1) (Position.new 4 3) =
        Except.error (ChessError.InvalidMove
          ("No piece at position " ++ (Position.new 4 1).to_string))) ∧
    (∀ piece, Board.new.get_piece (Position.new 4 1) = some piece →
      ∃ b2, Board.new.make_move (Position.new 4 1) (Position.new 4 3) = Except.ok b2 ∧
        b2.get_piece (Position.new 4 3) = some piece ∧
        (Position.new 4 1 ≠ Position.new 4 3 → b2.get_piece (Position.new 4 1) = none) ∧
        (∀ q : Position, q ≠ Position.new 4 1 → q ≠ Position.new 4 3 →
          b2.get_piece q = Board.new.get_piece q)) ∧
    (((Board.new.make_move (Position.new 4 1) (Position.new 4 3)).bind fun b1 =>
        b1.make_move (Position.new 4 3) (Position.new 4 4)).map (fun b2 =>
        (b2.get_piece (Position.new 4 1), b2.get_piece (Position.new 4 3),
          b2.get_piece (Position.new 4 4))) =
      Except.ok (none, none, some (Piece.new PieceType.Pawn Color.White))) :=
  c5_relocation Board.new (Position.new 4 1) (Position.new 4 3) (by decide) (by decide)

/-- C3: on the initial board, `Engine::generate_moves` yields exactly 20
pseudo-legal moves for White — 8 single pawn pushes (one rank forward,
same file), 8 double pushes (two ranks forward, same file) and 4 moves
whose source piece is a knight — and symmetrically 20 for Black. -/
theorem c3_initial_move_counts :
    (generate_moves Board.new Color.White).length = 20 ∧
    ((generate_moves Board.new Color.White).countP
      (fun m => m.to_.rank == m.from_.rank + 1 && m.to_.file == m.from_.file)) = 8 ∧
    ((generate_moves Board.new Color.White).countP
      (fun m => m.to_.rank == m.from_.rank + 2 && m.to_.file == m.from_.file)) = 8 ∧
    ((generate_moves Board.new Color.White).countP
      (fun m => Board.new.get_piece m.from_ ==
        some (Piece.new PieceType.Knight Color.White))) = 4 ∧
    (generate_moves Board.new Color.Black).length = 20 ∧
    ((generate_moves Board.new Color.Black).countP
      (fun m => m.to_.rank + 1 == m.from_.rank && m.to_.file == m.from_.file)) = 8 ∧
    ((generate_moves Board.new Color.Black).countP
      (fun m => m.to_.rank + 2 == m.from_.rank && m.to_.file == m.from_.file)) = 8 ∧
    ((generate_moves Board.new Color.Black).countP
      (fun m => Board.new.get_piece m.from_ ==
        some (Piece.new PieceType.Knight Color.Black))) = 4 := by
  decide

/-- Pointwise comparison of the source evaluation contribution with the
spec's wording, for all square contents and in-board coordinates. -/
theorem square_score_eq_spec :
    ∀ c : Color, ∀ sq : Option Piece, ∀ file, file < 8 → ∀ rank, rank < 8 →
      square_score c file rank sq = square_score_spec c file rank sq := by
  decide

/-- Summing negated contributions negates the sum. -/
theorem sum_map_neg_of_pointwise {α : Type} (l : List α) (f g : α → Int)
    (h : ∀ a ∈ l, f a = -g a) : (l.map f).sum = -((l.map g).sum) := by
  induction l with
  | nil => simp
  | cons x xs ih =>
    have hx := h x (by simp)
    have ht := ih (fun a ha => h a (by simp [ha]))
    simp [hx, ht]
    ring

/-- Congruence for mapped sums over a common index list. -/
theorem sum_map_congr {α : Type} (l : List α) (f g : α → Int)
    (h : ∀ a ∈ l, f a = g a) : (l.map f).sum = (l.map g).sum := by
  induction l with
  | nil => rfl
  | cons x xs ih =>
    have hx := h x (by simp)
    have ht := ih (fun a ha => h a (by simp [ha]))
    simp [hx, ht]

/-- C4: `Engine::evaluate_board` equals the spec's description — the sum
over all pieces of the signed material value (Pawn 100, Knight 320,
Bishop 330, Rook 500, Queen 900, King 20000; positive for the perspective
color, negative for the opponent), plus a center-control bonus of ±10 on
the four central squares, plus a development bonus of ±15 for each knight
or bishop not on its color's home rank. -/
theorem c4_evaluate_board_matches_spec (b : Board) (c : Color) :
    evaluate_board b c = evaluate_board_spec b c := by
  unfold evaluate_board evaluate_board_spec
  apply sum_map_congr
  intro rank hrank
  apply sum_map_congr
  intro file hfile
  exact square_score_eq_spec c _ file (List.mem_range.mp hfile) rank (List.mem_range.mp hrank)

/-- Pointwise antisymmetry of the evaluation contribution in the
perspective color. -/
theorem square_score_antisym :
    ∀ sq : Option Piece, ∀ file, file < 8 → ∀ rank, rank < 8 →
      square_score Color.White file rank sq = -square_score Color.Black file rank sq := by
  decide

/-- The static evaluation is antisymmetric in the perspective color. -/
theorem evaluate_board_antisym (b : Board) :
    evaluate_board b Color.White = -evaluate_board b Color.Black := by
  unfold evaluate_board
  apply sum_map_neg_of_pointwise
  intro rank hrank
  apply sum_map_neg_of_pointwise
  intro file hfile
  exact square_score_antisym _ file (List.mem_range.mp hfile) rank (List.mem_range.mp hrank)

/-- Negating the evaluation from the opposite perspective gives the
evaluation from one's own perspective. -/
theorem neg_evaluate_board_opposite (b : Board) (c : Color) :
    -evaluate_board b c.opposite = evaluate_board b c := by
  cases c
  · rw [show Color.White.opposite = Color.Black from rfl, ← evaluate_board_antisym b]
  · rw [show Color.Black.opposite = Color.White from rfl, evaluate_board_antisym b]
    ring

/-- C10: the static evaluation is exactly antisymmetric in the perspective
color, on every board. -/
theorem c10_evaluate_board_antisymmetric (b : Board) :
    evaluate_board b Color.White = -evaluate_board b Color.Black :=
  evaluate_board_antisym b


theorem ChessMove.new_from (a p : Position) : (ChessMove.new a p).from_ = a := rfl

theorem ChessMove.new_dest (a p : Position) : (ChessMove.new a p).to_ = p := rfl

/-- A position built from bounded integer coordinates is on the board. -/
theorem new_pos_valid (f r : Int) (hf0 : 0 ≤ f) (hf8 : f < 8) (hr0 : 0 ≤ r) (hr8 : r < 8) :
    (Position.new f.toNat r.toNat).is_valid := by
  constructor <;> simp [Position.new] <;> omega

/-- Every move produced by `step_move` starts at the given square and ends
on the board. -/
theorem mem_step_move (b : Board) (from_ : Position) (piece : Piece) (dr df : Int)
    (m : ChessMove) (hm : m ∈ step_move b from_ piece dr df) :
    m.from_ = from_ ∧ m.to_.is_valid := by
  simp only [step_move] at hm
  split at hm
  · next hb =>
    have hv := new_pos_valid _ _ hb.2.2.1 hb.2.2.2 hb.1 hb.2.1
    split at hm
    · next target heq =>
      split at hm
      · simp only [List.mem_singleton] at hm
        subst hm
        exact ⟨rfl, hv⟩
      · exact absurd hm (List.not_mem_nil m)
    · simp only [List.mem_singleton] at hm
      subst hm
      exact ⟨rfl, hv⟩
  · exact absurd hm (List.not_mem_nil m)

/-- Every move produced by the sliding loop starts at the given square and
ends on the board. -/
theorem mem_slide_moves (b : Board) (from_ : Position) (piece : Piece) (dr df : Int) :
    ∀ (fuel : Nat) (r f : Int) (m : ChessMove),
      m ∈ slide_moves b from_ piece dr df fuel r f → m.from_ = from_ ∧ m.to_.is_valid := by
  intro fuel
  induction fuel with
  | zero =>
    intro r f m hm
    exact absurd hm (List.not_mem_nil m)
  | succ fuel ih =>
    intro r f m hm
    simp only [slide_moves] at hm
    split at hm
    · next hb =>
      have hv := new_pos_valid _ _ hb.2.2.1 hb.2.2.2 hb.1 hb.2.1
      split at hm
      · next target heq =>
        split at hm
        · simp only [List.mem_singleton] at hm
          subst hm
          exact ⟨rfl, hv⟩
        · exact absurd hm (List.not_mem_nil m)
      · rcases List.mem_cons.mp hm with h | h
        · subst h
          exact ⟨rfl, hv⟩
        · exact ih (r + dr) (f + df) m h
    · exact absurd hm (List.not_mem_nil m)

/-- Every generated pawn move starts at the given (on-board) square and
ends on the board. -/
theorem mem_generate_pawn_moves (b : Board) (from_ : Position) (piece : Piece)
    (hv : from_.is_valid) (m : ChessMove) (hm : m ∈ generate_pawn_moves b from_ piece) :
    m.from_ = from_ ∧ m.to_.is_valid := by
  have hvf : from_.file ≤ 7 := hv.1
  simp only [generate_pawn_moves] at hm
  split at hm <;>
  · rcases List.mem_append.mp hm with h | h
    · split at h
      · next hb =>
        split at h
        · rcases List.mem_cons.mp h with h1 | h1
          · subst h1
            refine ⟨rfl, hvf, ?_⟩
            simp only [ChessMove.new_dest, Position.new]
            omega
          · split at h1
            · split at h1
              · next hb2 =>
                split at h1
                · simp only [List.mem_singleton] at h1
                  subst h1
                  refine ⟨rfl, hvf, ?_⟩
                  simp only [ChessMove.new_dest, Position.new]
                  omega
                · exact absurd h1 (List.not_mem_nil m)
              · exact absurd h1 (List.not_mem_nil m)
            · exact absurd h1 (List.not_mem_nil m)
        · exact absurd h (List.not_mem_nil m)
      · exact absurd h (List.not_mem_nil m)
    · split at h
      · next hb =>
        simp only [List.mem_flatten, List.mem_map] at h
        obtain ⟨l, ⟨off, hoff, hl⟩, hml⟩ := h
        subst hl
        split at hml
        · next hf =>
          split at hml
          · next target heq =>
            split at hml
            · simp only [List.mem_singleton] at hml
              subst hml
              refine ⟨rfl, ?_, ?_⟩ <;> simp only [ChessMove.new_dest, Position.new] <;> omega
            · exact absurd hml (List.not_mem_nil m)
          · exact absurd hml (List.not_mem_nil m)
        · exact absurd hml (List.not_mem_nil m)
      · exact absurd h (List.not_mem_nil m)

/-- Every move produced by the per-piece dispatch starts at the given
(on-board) square and ends on the board. -/
theorem mem_piece_moves (b : Board) (from_ : Position) (piece : Piece)
    (hv : from_.is_valid) (m : ChessMove) (hm : m ∈ piece_moves b from_ piece) :
    m.from_ = from_ ∧ m.to_.is_valid := by
  unfold piece_moves at hm
  cases hpt : piece.piece_type <;> rw [hpt] at hm
  case Pawn => exact mem_generate_pawn_moves b from_ piece hv m hm
  case Knight =>
    simp only [generate_knight_moves, List.mem_flatten, List.mem_map] at hm
    obtain ⟨l, ⟨d, hd, hl⟩, hml⟩ := hm
    subst hl
    exact mem_step_move b from_ piece d.1 d.2 m hml
  case Bishop =>
    simp only [generate_bishop_moves, generate_sliding_moves, List.mem_flatten,
      List.mem_map] at hm
    obtain ⟨l, ⟨d, hd, hl⟩, hml⟩ := hm
    subst hl
    exact mem_slide_moves b from_ piece d.1 d.2 8 _ _ m hml
  case Rook =>
    simp only [generate_rook_moves, generate_sliding_moves, List.mem_flatten,
      List.mem_map] at hm
    obtain ⟨l, ⟨d, hd, hl⟩, hml⟩ := hm
    subst hl
    exact mem_slide_moves b from_ piece d.1 d.2 8 _ _ m hml
  case Queen =>
    simp only [generate_queen_moves, generate_sliding_moves, List.mem_flatten,
      List.mem_map] at hm
    obtain ⟨l, ⟨d, hd, hl⟩, hml⟩ := hm
    subst hl
    exact mem_slide_moves b from_ piece d.1 d.2 8 _ _ m hml
  case King =>
    simp only [generate_king_moves, List.mem_flatten, List.mem_map] at hm
    obtain ⟨l, ⟨d, hd, hl⟩, hml⟩ := hm
    subst hl
    exact mem_step_move b from_ piece d.1 d.2 m hml

/-- Every generated move starts at an on-board square holding a piece of
the generating color, and ends on the board. -/
theorem mem_generate_moves (b : Board) (c : Color) (m : ChessMove)
    (hm : m ∈ generate_moves b c) :
    ∃ piece, b.get_piece m.from_ = some piece ∧ piece.color = c ∧
      m.from_.is_valid ∧ m.to_.is_valid := by
  simp only [generate_moves, List.mem_flatten, List.mem_map, List.mem_range] at hm
  obtain ⟨l, ⟨rank, hrank, hl⟩, hml⟩ := hm
  subst hl
  simp only [List.mem_flatten, List.mem_map, List.mem_range] at hml
  obtain ⟨l2, ⟨file, hfile, hl2⟩, hml2⟩ := hml
  subst hl2
  have hfv : (Position.new file rank).is_valid := by
    constructor <;> simp [Position.new] <;> omega
  split at hml2
  · next piece heq =>
    split at hml2
    · next hc =>
      obtain ⟨hfrom, htv⟩ := mem_piece_moves b (Position.new file rank) piece hfv m hml2
      exact ⟨piece, by rw [hfrom]; exact heq, hc, by rw [hfrom]; exact hfv, htv⟩
    · exact absurd hml2 (List.not_mem_nil m)
  · exact absurd hml2 (List.not_mem_nil m)

/-- Relocation always succeeds at a valid source square holding a piece
and a valid destination. -/
theorem make_move_ok (b : Board) (from_ to_ : Position) (piece : Piece)
    (hf : from_.is_valid) (ht : to_.is_valid) (hget : b.get_piece from_ = some piece) :
    b.make_move from_ to_ = Except.ok
      ⟨fun r f =>
        if r.val = to_.rank ∧ f.val = to_.file then some piece
        else if r.val = from_.rank ∧ f.val = from_.file then none
        else b.squares r f⟩ := by
  simp [Board.make_move, hf, ht, hget, Board.set_piece, Except.bind]

/-- Every generated move can actually be applied by `Board::make_move`. -/
theorem generate_moves_make_move_ok (b : Board) (c : Color) (m : ChessMove)
    (hm : m ∈ generate_moves b c) :
    ∃ b2, b.make_move m.from_ m.to_ = Except.ok b2 := by
  obtain ⟨piece, hget, _, hfv, htv⟩ := mem_generate_moves b c m hm
  exact ⟨_, make_move_ok b m.from_ m.to_ piece hfv htv hget⟩

/-- Counterexample to C1: on a fresh game, a White pawn sits on e2 and it
is White's turn, and the board-level relocation e2-e5 would succeed, yet
`Game::make_move` rejects the move with `InvalidMove` ("Illegal move")
because it is not in the generated pseudo-legal move set — so `make_move`
does perform a legality check beyond color-and-occupancy.  Moreover the
accepted move e2-e4 leaves `move_history` empty: no history record is
appended. -/
theorem c1_counterexample :
    Game.new.board.get_piece (Position.new 4 1) =
      some (Piece.new PieceType.Pawn Color.White) ∧
    Game.new.current_turn = Color.White ∧
    ((Game.new.board.make_move (Position.new 4 1) (Position.new 4 4)).map
      (fun b2 => b2.get_piece (Position.new 4 4))) =
      Except.ok (some (Piece.new PieceType.Pawn Color.White)) ∧
    ((Game.new.make_move (ChessMove.new (Position.new 4 1) (Position.new 4 4))).map
      (fun g => g.move_history)) =
      Except.error (ChessError.InvalidMove "Illegal move") ∧
    ((Game.new.make_move (ChessMove.new (Position.new 4 1) (Position.new 4 3))).map
      (fun g => g.move_history)) = Except.ok [] := by
  decide

/-- C1 as amended: `Game::make_move` takes an already-parsed move; it
fails with `InvalidMove` if no piece sits at the source, fails with
`InvalidMove` ("Not your turn") if that piece's color differs from
`current_turn`, fails with `InvalidMove` ("Illegal move")', if the move is
not among the generated pseudo-legal moves, and otherwise relocates on the
board via `Board::move_piece` (which succeeds for generated moves), flips
`current_turn`, and leaves `move_history` and `status` unchanged. -/
theorem c1_make_move_strict (g : Game) (m : ChessMove) :
    (g.board.get_piece m.from_ = none →
      g.make_move m = Except.error (ChessError.InvalidMove "No piece at source position")) ∧
    (∀ piece, g.board.get_piece m.from_ = some piece → piece.color ≠ g.current_turn →
      g.make_move m = Except.error (ChessError.InvalidMove "Not your turn")) ∧
    (∀ piece, g.board.get_piece m.from_ = some piece → piece.color = g.current_turn →
      m ∉ generate_moves g.board g.current_turn →
      g.make_move m = Except.error (ChessError.InvalidMove "Illegal move")) ∧
    (∀ piece, g.board.get_piece m.from_ = some piece → piece.color = g.current_turn →
      m ∈ generate_moves g.board g.current_turn →
      ∃ b2, g.board.move_piece m = Except.ok b2 ∧
        g.make_move m = Except.ok
          ⟨b2, g.current_turn.opposite, g.status, g.move_history, g.engine⟩) := by
  refine ⟨?_, ?_, ?_, ?_⟩
  · intro hnone
    simp [Game.make_move, hnone]
  · intro piece hsome hc
    simp [Game.make_move, hsome, hc]
  · intro piece hsome hc hnm
    simp [Game.make_move, hsome, hc, ChessEngine.get_legal_moves, hnm]
  · intro piece hsome hc hmem
    obtain ⟨pc, hget, _, hfv, htv⟩ := mem_generate_moves g.board g.current_turn m hmem
    have hok : g.board.move_piece m = Except.ok ⟨fun r f =>
        if r.val = m.to_.rank ∧ f.val = m.to_.file then some pc
        else if r.val = m.from_.rank ∧ f.val = m.from_.file then none
        else g.board.squares r f⟩ := make_move_ok g.board m.from_ m.to_ pc hfv htv hget
    refine ⟨_, hok, ?_⟩
    simp [Game.make_move, hsome, hc, ChessEngine.get_legal_moves, hmem, hok]

/-- Witness for C1 as amended: the fresh game and the double pawn push
e2-e4, which is in the generated move set. -/
theorem c1_witness :
    ∃ b2, Game.new.board.move_piece (ChessMove.new (Position.new 4 1) (Position.new 4 3)) =
        Except.ok b2 ∧
      Game.new.make_move (ChessMove.new (Position.new 4 1) (Position.new 4 3)) =
        Except.ok ⟨b2, Game.new.current_turn.opposite, Game.new.status,
          Game.new.move_history, Game.new.engine⟩ :=
  (c1_make_move_strict Game.new (ChessMove.new (Position.new 4 1) (Position.new 4 3))).2.2.2
    (Piece.new PieceType.Pawn Color.White) (by decide) (by decide) (by decide)

/-- C8: `find_best_move` is deterministic — two engines at the same depth
return the same result (move and score) on the same game, and invoking
the search again on the engine returned by a first invocation returns the
same result again; no engine state other than `depth` influences the
result. -/
theorem c8_find_best_move_deterministic (e1 e2 : Engine) (g : Game)
    (h : e1.depth = e2.depth) :
    (e1.find_best_move g).1 = (e2.find_best_move g).1 ∧
    (((e1.find_best_move g).2).find_best_move g).1 = (e1.find_best_move g).1 ∧
    (((e1.find_best_move g).2).find_best_move g).2.nodes_searched =
      (e1.find_best_move g).2.nodes_searched := by
  unfold Engine.find_best_move
  rw [h]
  exact ⟨rfl, rfl, rfl⟩

/-- Witness for C8: two fresh depth-3 engines on the test game. -/
theorem c8_witness :
    ((Engine.new 3).find_best_move cex_game).1 =
      ((Engine.new 3).find_best_move cex_game).1 ∧
    ((((Engine.new 3).find_best_move cex_game).2).find_best_move cex_game).1 =
      ((Engine.new 3).find_best_move cex_game).1 ∧
    ((((Engine.new 3).find_best_move cex_game).2).find_best_move cex_game).2.nodes_searched =
      ((Engine.new 3).find_best_move cex_game).2.nodes_searched :=
  c8_find_best_move_deterministic (Engine.new 3) (Engine.new 3) cex_game rfl

theorem minimax_zero (b : Board) (alpha beta : Int) (c : Color) (n : Nat) :
    minimax b 0 alpha beta c n = (evaluate_board b c, (n + 1) % U32_MOD) := rfl

/-- Specification of the candidate loop of `find_best_move` at inner
depth 0: any returned move applies successfully and carries the best
score, which equals the negated opponent-perspective evaluation of its
resulting board; and that score is at least the score of every
successfully applicable candidate in the list. -/
theorem find_best_loop_depth0_spec (c : Color) (b : Board) :
    ∀ (ms : List ChessMove) (best0 : Option ChessMove) (bs0 : Int) (n : Nat),
      (∀ mv, best0 = some mv → ∃ b2, b.make_move mv.from_ mv.to_ = Except.ok b2 ∧
          mv.score = bs0 ∧ bs0 = -evaluate_board b2 c.opposite) →
      (∀ mv, (find_best_loop 0 c b ms best0 bs0 n).1 = some mv →
          ∃ b2, b.make_move mv.from_ mv.to_ = Except.ok b2 ∧
            mv.score = (find_best_loop 0 c b ms best0 bs0 n).2.1 ∧
            (find_best_loop 0 c b ms best0 bs0 n).2.1 = -evaluate_board b2 c.opposite) ∧
      bs0 ≤ (find_best_loop 0 c b ms best0 bs0 n).2.1 ∧
      (∀ m ∈ ms, ∀ b2, b.make_move m.from_ m.to_ = Except.ok b2 →
        -evaluate_board b2 c.opposite ≤ (find_best_loop 0 c b ms best0 bs0 n).2.1) := by
  intro ms
  induction ms with
  | nil =>
    intro best0 bs0 n hinv
    refine ⟨?_, le_refl bs0, ?_⟩
    · intro mv hmv
      exact hinv mv hmv
    · intro m hm
      exact absurd hm (List.not_mem_nil m)
  | cons m ms ih =>
    intro best0 bs0 n hinv
    rcases hmake : b.make_move m.from_ m.to_ with e | b2
    · have hloop : find_best_loop 0 c b (m :: ms) best0 bs0 n =
          find_best_loop 0 c b ms best0 bs0 n := by
        simp [find_best_loop, hmake]
      obtain ⟨h1, h2, h3⟩ := ih best0 bs0 n hinv
      rw [hloop]
      refine ⟨h1, h2, ?_⟩
      intro m' hm' b2 hb2
      rcases List.mem_cons.mp hm' with h | h
      · subst h
        rw [hmake] at hb2
        exact absurd hb2 (by simp)
      · exact h3 m' h b2 hb2
    · by_cases hgt : -evaluate_board b2 c.opposite > bs0
      · have hloop : find_best_loop 0 c b (m :: ms) best0 bs0 n =
            find_best_loop 0 c b ms
              (some ⟨m.from_, m.to_, -evaluate_board b2 c.opposite⟩)
              (-evaluate_board b2 c.opposite)
              ((minimax b2 0 (I32_MIN + 1) (I32_MAX - 1) c.opposite n).2) := by
          simp [find_best_loop, hmake, minimax_zero, hgt]
        have hinv2 : ∀ mv, (some ⟨m.from_, m.to_, -evaluate_board b2 c.opposite⟩ :
            Option ChessMove) = some mv →
            ∃ b3, b.make_move mv.from_ mv.to_ = Except.ok b3 ∧
              mv.score = -evaluate_board b2 c.opposite ∧
              -evaluate_board b2 c.opposite = -evaluate_board b3 c.opposite := by
          intro mv hmv
          rw [Option.some.injEq] at hmv
          subst hmv
          exact ⟨b2, hmake, rfl, rfl⟩
        obtain ⟨h1, h2, h3⟩ := ih _ _ _ hinv2
        rw [hloop]
        refine ⟨h1, le_trans (le_of_lt hgt) h2, ?_⟩
        intro m' hm' b3 hb3
        rcases List.mem_cons.mp hm' with h | h
        · subst h
          rw [hmake, Except.ok.injEq] at hb3
          subst hb3
          exact h2
        · exact h3 m' h b3 hb3
      · have hloop : find_best_loop 0 c b (m :: ms) best0 bs0 n =
            find_best_loop 0 c b ms best0 bs0
              ((minimax b2 0 (I32_MIN + 1) (I32_MAX - 1) c.opposite n).2) := by
          simp [find_best_loop, hmake, minimax_zero, hgt]
        obtain ⟨h1, h2, h3⟩ := ih best0 bs0 _ hinv
        rw [hloop]
        refine ⟨h1, h2, ?_⟩
        intro m' hm' b3 hb3
        rcases List.mem_cons.mp hm' with h | h
        · subst h
          rw [hmake, Except.ok.injEq] at hb3
          subst hb3
          exact le_trans (not_lt.mp hgt) h2
        · exact h3 m' h b3 hb3

/-- Counterexample to C6: on `cex_board` (White pawn b4 against Black pawn
a5 and Black king h8, White to move) the capture b4xa5 is generated and
its destination is enemy-occupied, yet `find_best_move` at depth 2 returns
the quiet push b4-b5, whose resulting static evaluation from the mover's
perspective (-20000) is strictly lower than the capture's (-19900). -/
theorem c6_counterexample :
    (ChessMove.new (Position.new 1 3) (Position.new 0 4)) ∈
      generate_moves cex_board Color.White ∧
    cex_board.get_piece (Position.new 0 4) =
      some (Piece.new PieceType.Pawn Color.Black) ∧
    ((Engine.new 2).find_best_move cex_game).1 =
      Except.ok ⟨Position.new 1 3, Position.new 1 4, 20000⟩ ∧
    ((cex_board.make_move (Position.new 1 3) (Position.new 1 4)).map
      (fun b2 => evaluate_board b2 Color.White)) = Except.ok (-20000) ∧
    ((cex_board.make_move (Position.new 1 3) (Position.new 0 4)).map
      (fun b2 => evaluate_board b2 Color.White)) = Except.ok (-19900) ∧
    (-20000 : Int) < -19900 := by
  decide

/-- C6 as amended (holds at search depth 1): whenever `find_best_move`
with a depth-1 engine returns a move, the static evaluation of the board
it produces, from the mover's perspective, is at least that of every
successfully applicable generated move — in particular of every available
capture. -/
theorem c6_depth1_capture_bound (g : Game) (mv m_cap : ChessMove) (b_best b_cap : Board)
    (hrun : ((Engine.new 1).find_best_move g).1 = Except.ok mv)
    (hcapmem : m_cap ∈ generate_moves g.board g.current_turn)
    (_hcapture : (g.board.get_piece m_cap.to_).isSome = true)
    (hbest : g.board.make_move mv.from_ mv.to_ = Except.ok b_best)
    (hcap : g.board.make_move m_cap.from_ m_cap.to_ = Except.ok b_cap) :
    evaluate_board b_cap g.current_turn ≤ evaluate_board b_best g.current_turn := by
  have hcore : (find_best_core 1 g.board g.current_turn).1 = Except.ok mv := hrun
  unfold find_best_core at hcore
  by_cases hempty : generate_moves g.board g.current_turn = []
  · rw [if_pos hempty] at hcore
    exact absurd hcore (by simp)
  · rw [if_neg hempty] at hcore
    obtain ⟨h1, _, h3⟩ := find_best_loop_depth0_spec g.current_turn g.board
      (generate_moves g.board g.current_turn) none I32_MIN 0
      (fun mv h => absurd h (by simp))
    rcases hr : (find_best_loop 0 g.current_turn g.board
        (generate_moves g.board g.current_turn) none I32_MIN 0).1 with _ | mv'
    · simp only [Nat.sub_self, hr] at hcore
      exact absurd hcore (by simp)
    · simp only [Nat.sub_self, hr, Except.ok.injEq] at hcore
      subst hcore
      obtain ⟨b2, hb2, hscore, hval⟩ := h1 mv' hr
      rw [hbest, Except.ok.injEq] at hb2
      subst hb2
      have hle := h3 m_cap hcapmem b_cap hcap
      rw [hval] at hle
      have h4 := neg_evaluate_board_opposite b_cap g.current_turn
      have h5 := neg_evaluate_board_opposite b_best g.current_turn
      omega

/-- Witness for C6 as amended: on `cex_board` the depth-1 engine returns
the capture b4xa5, whose resulting evaluation is at least that of the
capture itself. -/
theorem c6_witness :
    evaluate_board
        ⟨fun r f =>
          if r.val = 4 ∧ f.val = 0 then some (Piece.new PieceType.Pawn Color.White)
          else if r.val = 3 ∧ f.val = 1 then none
          else cex_board.squares r f⟩ Color.White ≤
      evaluate_board
        ⟨fun r f =>
          if r.val = 4 ∧ f.val = 0 then some (Piece.new PieceType.Pawn Color.White)
          else if r.val = 3 ∧ f.val = 1 then none
          else cex_board.squares r f⟩ Color.White :=
  c6_depth1_capture_bound cex_game
    ⟨Position.new 1 3, Position.new 0 4, -19900⟩
    (ChessMove.new (Position.new 1 3) (Position.new 0 4)) _ _
    (by decide) (by decide) (by decide) rfl rfl

theorem plain_max_loop_ge_acc (f : Board → Int) (b : Board) :
    ∀ (ms : List ChessMove) (acc : Int), acc ≤ plain_max_loop f b ms acc := by
  intro ms
  induction ms with
  | nil => intro acc; simp [plain_max_loop]
  | cons m ms ih =>
    intro acc
    rcases hmake : b.make_move m.from_ m.to_ with e | b2 <;> simp only [plain_max_loop, hmake]
    · exact ih acc
    · exact le_trans (le_max_left acc (f b2)) (ih (max acc (f b2)))

theorem plain_min_loop_le_acc (f : Board → Int) (b : Board) :
    ∀ (ms : List ChessMove) (acc : Int), plain_min_loop f b ms acc ≤ acc := by
  intro ms
  induction ms with
  | nil => intro acc; simp [plain_min_loop]
  | cons m ms ih =>
    intro acc
    rcases hmake : b.make_move m.from_ m.to_ with e | b2 <;> simp only [plain_min_loop, hmake]
    · exact ih acc
    · exact le_trans (ih (min acc (f b2))) (min_le_left acc (f b2))

theorem plain_max_loop_mono (f : Board → Int) (b : Board) :
    ∀ (ms : List ChessMove) (a a2 : Int), a ≤ a2 →
      plain_max_loop f b ms a ≤ plain_max_loop f b ms a2 := by
  intro ms
  induction ms with
  | nil => intro a a2 h; simpa [plain_max_loop] using h
  | cons m ms ih =>
    intro a a2 h
    rcases hmake : b.make_move m.from_ m.to_ with e | b2 <;> simp only [plain_max_loop, hmake]
    · exact ih a a2 h
    · exact ih _ _ (max_le_max h (le_refl (f b2)))

theorem plain_min_loop_mono (f : Board → Int) (b : Board) :
    ∀ (ms : List ChessMove) (a a2 : Int), a ≤ a2 →
      plain_min_loop f b ms a ≤ plain_min_loop f b ms a2 := by
  intro ms
  induction ms with
  | nil => intro a a2 h; simpa [plain_min_loop] using h
  | cons m ms ih =>
    intro a a2 h
    rcases hmake : b.make_move m.from_ m.to_ with e | b2 <;> simp only [plain_min_loop, hmake]
    · exact ih a a2 h
    · exact ih _ _ (min_le_min h (le_refl (f b2)))

theorem plain_max_loop_max (f : Board → Int) (b : Board) :
    ∀ (ms : List ChessMove) (a k : Int),
      plain_max_loop f b ms (max a k) = max (plain_max_loop f b ms a) k := by
  intro ms
  induction ms with
  | nil => intro a k; simp [plain_max_loop]
  | cons m ms ih =>
    intro a k
    rcases hmake : b.make_move m.from_ m.to_ with e | b2 <;> simp only [plain_max_loop, hmake]
    · exact ih a k
    · rw [show max (max a k) (f b2) = max (max a (f b2)) k from
        by rw [max_assoc, max_comm k (f b2), max_assoc]]
      exact ih (max a (f b2)) k

theorem plain_min_loop_min (f : Board → Int) (b : Board) :
    ∀ (ms : List ChessMove) (a k : Int),
      plain_min_loop f b ms (min a k) = min (plain_min_loop f b ms a) k := by
  intro ms
  induction ms with
  | nil => intro a k; simp [plain_min_loop]
  | cons m ms ih =>
    intro a k
    rcases hmake : b.make_move m.from_ m.to_ with e | b2 <;> simp only [plain_min_loop, hmake]
    · exact ih a k
    · rw [show min (min a k) (f b2) = min (min a (f b2)) k from
        by rw [min_assoc, min_comm k (f b2), min_assoc]]
      exact ih (min a (f b2)) k

theorem plain_max_loop_le (f : Board → Int) (b : Board) (K : Int)
    (hf : ∀ b2 : Board, f b2 ≤ K) :
    ∀ (ms : List ChessMove) (acc : Int), acc ≤ K → plain_max_loop f b ms acc ≤ K := by
  intro ms
  induction ms with
  | nil => intro acc h; simpa [plain_max_loop] using h
  | cons m ms ih =>
    intro acc h
    rcases hmake : b.make_move m.from_ m.to_ with e | b2 <;> simp only [plain_max_loop, hmake]
    · exact ih acc h
    · exact ih _ (max_le h (hf b2))

theorem plain_min_loop_ge (f : Board → Int) (b : Board) (K : Int)
    (hf : ∀ b2 : Board, K ≤ f b2) :
    ∀ (ms : List ChessMove) (acc : Int), K ≤ acc → K ≤ plain_min_loop f b ms acc := by
  intro ms
  induction ms with
  | nil => intro acc h; simpa [plain_min_loop] using h
  | cons m ms ih =>
    intro acc h
    rcases hmake : b.make_move m.from_ m.to_ with e | b2 <;> simp only [plain_min_loop, hmake]
    · exact ih acc h
    · exact ih _ (le_min h (hf b2))

theorem plain_max_loop_ge_mem (f : Board → Int) (b : Board) :
    ∀ (ms : List ChessMove) (acc : Int) (m : ChessMove) (b2 : Board),
      m ∈ ms → b.make_move m.from_ m.to_ = Except.ok b2 →
      f b2 ≤ plain_max_loop f b ms acc := by
  intro ms
  induction ms with
  | nil =>
    intro acc m b2 hm
    exact absurd hm (List.not_mem_nil m)
  | cons m' ms ih =>
    intro acc m b2 hm hmake
    rcases List.mem_cons.mp hm with h | h
    · subst h
      simp only [plain_max_loop, hmake]
      exact le_trans (le_max_right acc (f b2)) (plain_max_loop_ge_acc f b ms _)
    · rcases hmake2 : b.make_move m'.from_ m'.to_ with e | b3 <;>
        simp only [plain_max_loop, hmake2]
      · exact ih acc m b2 h hmake
      · exact ih _ m b2 h hmake

theorem plain_min_loop_le_mem (f : Board → Int) (b : Board) :
    ∀ (ms : List ChessMove) (acc : Int) (m : ChessMove) (b2 : Board),
      m ∈ ms → b.make_move m.from_ m.to_ = Except.ok b2 →
      plain_min_loop f b ms acc ≤ f b2 := by
  intro ms
  induction ms with
  | nil =>
    intro acc m b2 hm
    exact absurd hm (List.not_mem_nil m)
  | cons m' ms ih =>
    intro acc m b2 hm hmake
    rcases List.mem_cons.mp hm with h | h
    · subst h
      simp only [plain_min_loop, hmake]
      exact le_trans (plain_min_loop_le_acc f b ms _) (min_le_right acc (f b2))
    · rcases hmake2 : b.make_move m'.from_ m'.to_ with e | b3 <;>
        simp only [plain_min_loop, hmake2]
      · exact ih acc m b2 h hmake
      · exact ih _ m b2 h hmake

/-- Per-square evaluation contributions are bounded by 20025 in absolute
value (king 20000, center bonus 10, development bonus 15). -/
theorem square_score_bound :
    ∀ c : Color, ∀ sq : Option Piece, ∀ file, file < 8 → ∀ rank, rank < 8 →
      -20025 ≤ square_score c file rank sq ∧ square_score c file rank sq ≤ 20025 := by
  decide

/-- A list of integers bounded by K in absolute value sums to at most
K times its length in absolute value. -/
theorem sum_bound (K : Int) :
    ∀ l : List Int, (∀ x ∈ l, -K ≤ x ∧ x ≤ K) →
      -(K * l.length) ≤ l.sum ∧ l.sum ≤ K * l.length := by
  intro l
  induction l with
  | nil => intro _; simp
  | cons x xs ih =>
    intro h
    have hx := h x (by simp)
    have ht := ih (fun a ha => h a (by simp [ha]))
    simp only [List.sum_cons, List.length_cons]
    constructor
    · push_cast
      have heq : -(K * ((xs.length : Int) + 1)) = -K + -(K * xs.length) := by ring
      rw [heq]
      exact add_le_add hx.1 ht.1
    · push_cast
      calc x + xs.sum ≤ K + K * xs.length := add_le_add hx.2 ht.2
        _ = K * ((xs.length : Int) + 1) := by ring

/-- The static evaluation of any board is bounded by 64 * 20025 = 1281600
in absolute value. -/
theorem evaluate_board_bound (b : Board) (c : Color) :
    -1281600 ≤ evaluate_board b c ∧ evaluate_board b c ≤ 1281600 := by
  unfold evaluate_board
  have hinner : ∀ rank ∈ List.range 8,
      -160200 ≤ (((List.range 8).map fun file =>
          square_score c file rank (b.get_piece (Position.new file rank))).sum) ∧
      (((List.range 8).map fun file =>
          square_score c file rank (b.get_piece (Position.new file rank))).sum) ≤ 160200 := by
    intro rank hrank
    have h := sum_bound 20025 ((List.range 8).map fun file =>
        square_score c file rank (b.get_piece (Position.new file rank))) ?_
    · simpa using h
    · intro x hx
      simp only [List.mem_map, List.mem_range] at hx
      obtain ⟨file, hfile, hfx⟩ := hx
      subst hfx
      exact square_score_bound c _ file hfile rank (List.mem_range.mp hrank)
  have h := sum_bound 160200 ((List.range 8).map fun rank =>
      (((List.range 8).map fun file =>
        square_score c file rank (b.get_piece (Position.new file rank))).sum)) ?_
  · simpa using h
  · intro x hx
    simp only [List.mem_map, List.mem_range] at hx
    obtain ⟨rank, hrank, hrx⟩ := hx
    subst hrx
    exact hinner rank (List.mem_range.mpr hrank)

/-- The value computed by the cutoff-free minimax recursion is bounded by
the static-evaluation bound: every value it returns is the evaluation of
some reachable board, because every generated move relocates
successfully. -/
theorem minimax_no_ab_bound :
    ∀ (d : Nat) (b : Board) (c : Color),
      -1281600 ≤ minimax_no_ab b d c ∧ minimax_no_ab b d c ≤ 1281600 := by
  intro d
  induction d with
  | zero =>
    intro b c
    exact evaluate_board_bound b c
  | succ d ih =>
    intro b c
    rcases hms : generate_moves b c with _ | ⟨m, rest⟩
    · unfold minimax_no_ab
      rw [hms]
      simpa using evaluate_board_bound b c
    · have hmem : m ∈ generate_moves b c := by rw [hms]; exact List.mem_cons_self m rest
      obtain ⟨b2, hb2⟩ := generate_moves_make_move_ok b c m hmem
      unfold minimax_no_ab
      rw [hms]
      simp only [reduceCtorEq, if_false]
      cases c
      · constructor
        · refine le_trans (ih b2 Color.Black).1 ?_
          rw [← hms]
          exact plain_max_loop_ge_mem _ b (generate_moves b Color.White) I32_MIN m b2
            (by rw [hms]; exact List.mem_cons_self m rest) hb2
        · rw [← hms]
          exact plain_max_loop_le _ b 1281600 (fun b3 => (ih b3 Color.Black).2) _ I32_MIN
            (by unfold I32_MIN; omega)
      · constructor
        · rw [← hms]
          exact plain_min_loop_ge _ b (-1281600) (fun b3 => (ih b3 Color.White).1) _ I32_MAX
            (by unfold I32_MAX; omega)
        · refine le_trans ?_ (ih b2 Color.White).2
          rw [← hms]
          exact plain_min_loop_le_mem _ b (generate_moves b Color.Black) I32_MAX m b2
            (by rw [hms]; exact List.mem_cons_self m rest) hb2

/-- Fail-soft alpha-beta window bound for the maximizing loop: given that
every child score is exact inside its window (and bounded by the window
edge it fails past), the loop's result `r` satisfies
`min v beta ≤ r ≤ max v alpha`, where `v` is the value of the identical
loop without the cutoff. -/
theorem ab_max_loop_km (f : Board → Int → Int → Nat → Int × Nat) (g : Board → Int)
    (b : Board) (beta : Int)
    (hf : ∀ (b2 : Board) (alpha2 beta2 : Int) (n2 : Nat),
      I32_MIN ≤ alpha2 → beta2 ≤ I32_MAX → alpha2 < beta2 →
      min (g b2) beta2 ≤ (f b2 alpha2 beta2 n2).1 ∧
        (f b2 alpha2 beta2 n2).1 ≤ max (g b2) alpha2)
    (hbeta : beta ≤ I32_MAX) :
    ∀ (ms : List ChessMove) (max_score alpha : Int) (n : Nat),
      I32_MIN ≤ alpha → alpha < beta → max_score ≤ alpha →
      min (plain_max_loop g b ms max_score) beta ≤
          (ab_max_loop f b beta ms max_score alpha n).1 ∧
        (ab_max_loop f b beta ms max_score alpha n).1 ≤
          max (plain_max_loop g b ms max_score) alpha := by
  intro ms
  induction ms with
  | nil =>
    intro max_score alpha n halo hab hms
    simp only [ab_max_loop, plain_max_loop]
    exact ⟨min_le_left _ _, le_max_left _ _⟩
  | cons m ms ih =>
    intro max_score alpha n halo hab hms
    rcases hmake : b.make_move m.from_ m.to_ with e | b2
    · simp only [ab_max_loop, plain_max_loop, hmake]
      exact ih max_score alpha n halo hab hms
    · have hchild := hf b2 alpha beta n halo hbeta hab
      have hv1PV : g b2 ≤ plain_max_loop g b ms (max max_score (g b2)) :=
        le_trans (le_max_right _ _) (plain_max_loop_ge_acc g b ms _)
      simp only [ab_max_loop, plain_max_loop, hmake]
      by_cases hcut : beta ≤ max alpha (f b2 alpha beta n).1
      · rw [if_pos hcut]
        have halts : alpha < (f b2 alpha beta n).1 := by
          by_contra hle
          push_neg at hle
          rw [max_eq_left hle] at hcut
          omega
        have hsbeta : beta ≤ (f b2 alpha beta n).1 := by
          rw [max_eq_right (le_of_lt halts)] at hcut
          exact hcut
        constructor
        · exact le_trans (min_le_right _ _) (le_trans hsbeta (le_max_right _ _))
        · refine max_le (le_trans hms (le_max_right _ _)) ?_
          exact le_trans hchild.2 (max_le (le_trans hv1PV (le_max_left _ _)) (le_max_right _ _))
      · rw [if_neg hcut]
        push_neg at hcut
        have hslt : (f b2 alpha beta n).1 < beta := lt_of_le_of_lt (le_max_right alpha _) hcut
        rcases le_total (g b2) beta with hc | hc
        · have hv1s : g b2 ≤ (f b2 alpha beta n).1 := by
            rw [min_eq_left hc] at hchild
            exact hchild.1
          obtain ⟨ihl, ihu⟩ := ih (max max_score (f b2 alpha beta n).1)
            (max alpha (f b2 alpha beta n).1) (f b2 alpha beta n).2
            (le_trans halo (le_max_left _ _)) hcut
            (max_le_max hms (le_refl _))
          constructor
          · refine le_trans ?_ ihl
            refine min_le_min ?_ (le_refl beta)
            exact plain_max_loop_mono g b ms _ _ (max_le_max (le_refl _) hv1s)
          · refine le_trans ihu ?_
            refine max_le ?_ ?_
            · refine le_trans (plain_max_loop_mono g b ms _ _
                (max_le_max (le_refl max_score) hchild.2)) ?_
              rw [show max max_score (max (g b2) alpha) =
                  max (max max_score (g b2)) alpha from by
                rw [max_assoc]]
              rw [plain_max_loop_max]
            · refine max_le (le_max_right _ _) ?_
              exact le_trans hchild.2 (max_le (le_trans hv1PV (le_max_left _ _))
                (le_max_right _ _))
        · rw [min_eq_right hc] at hchild
          omega

/-- Fail-soft alpha-beta window bound for the minimizing loop, dual to
`ab_max_loop_km`. -/
theorem ab_min_loop_km (f : Board → Int → Int → Nat → Int × Nat) (g : Board → Int)
    (b : Board) (alpha : Int)
    (hf : ∀ (b2 : Board) (alpha2 beta2 : Int) (n2 : Nat),
      I32_MIN ≤ alpha2 → beta2 ≤ I32_MAX → alpha2 < beta2 →
      min (g b2) beta2 ≤ (f b2 alpha2 beta2 n2).1 ∧
        (f b2 alpha2 beta2 n2).1 ≤ max (g b2) alpha2)
    (halpha : I32_MIN ≤ alpha) :
    ∀ (ms : List ChessMove) (min_score beta : Int) (n : Nat),
      beta ≤ I32_MAX → alpha < beta → beta ≤ min_score →
      min (plain_min_loop g b ms min_score) beta ≤
          (ab_min_loop f b alpha ms min_score beta n).1 ∧
        (ab_min_loop f b alpha ms min_score beta n).1 ≤
          max (plain_min_loop g b ms min_score) alpha := by
  intro ms
  induction ms with
  | nil =>
    intro min_score beta n hbeta hab hms
    simp only [ab_min_loop, plain_min_loop]
    exact ⟨min_le_left _ _, le_max_left _ _⟩
  | cons m ms ih =>
    intro min_score beta n hbeta hab hms
    rcases hmake : b.make_move m.from_ m.to_ with e | b2
    · simp only [ab_min_loop, plain_min_loop, hmake]
      exact ih min_score beta n hbeta hab hms
    · have hchild := hf b2 alpha beta n halpha hbeta hab
      have hPVv1 : plain_min_loop g b ms (min min_score (g b2)) ≤ g b2 :=
        le_trans (plain_min_loop_le_acc g b ms _) (min_le_right _ _)
      simp only [ab_min_loop, plain_min_loop, hmake]
      by_cases hcut : min beta (f b2 alpha beta n).1 ≤ alpha
      · rw [if_pos hcut]
        have hslt : (f b2 alpha beta n).1 < beta := by
          by_contra hle
          push_neg at hle
          rw [min_eq_left hle] at hcut
          omega
        have hsalpha : (f b2 alpha beta n).1 ≤ alpha := by
          rw [min_eq_right (le_of_lt hslt)] at hcut
          exact hcut
        constructor
        · refine le_min (le_trans (min_le_right _ _) hms) ?_
          exact le_trans (min_le_min hPVv1 (le_refl beta)) hchild.1
        · exact le_trans (min_le_right _ _) (le_trans hsalpha (le_max_right _ _))
      · rw [if_neg hcut]
        push_neg at hcut
        have hsgt : alpha < (f b2 alpha beta n).1 :=
          lt_of_lt_of_le hcut (min_le_right beta _)
        rcases le_total alpha (g b2) with hc | hc
        · have hs_v1 : (f b2 alpha beta n).1 ≤ g b2 := by
            rw [max_eq_left hc] at hchild
            exact hchild.2
          obtain ⟨ihl, ihu⟩ := ih (min min_score (f b2 alpha beta n).1)
            (min beta (f b2 alpha beta n).1) (f b2 alpha beta n).2
            (le_trans (min_le_left _ _) hbeta) hcut
            (min_le_min hms (le_refl _))
          constructor
          · refine le_trans ?_ ihl
            refine le_min ?_ ?_
            · have heq : min (plain_min_loop g b ms (min min_score (g b2))) beta =
                  plain_min_loop g b ms (min (min min_score (g b2)) beta) :=
                (plain_min_loop_min g b ms _ beta).symm
              rw [heq]
              refine plain_min_loop_mono g b ms _ _ ?_
              rw [min_assoc]
              exact min_le_min (le_refl min_score) hchild.1
            · refine le_min (min_le_right _ _) ?_
              exact le_trans (min_le_min hPVv1 (le_refl beta)) hchild.1
          · refine le_trans ihu ?_
            refine max_le ?_ (le_max_right _ _)
            exact le_trans (plain_min_loop_mono g b ms _ _
              (min_le_min (le_refl min_score) hs_v1)) (le_max_left _ _)
        · rw [max_eq_right hc] at hchild
          omega

theorem minimax_succ (b : Board) (d : Nat) (alpha beta : Int) (c : Color) (n : Nat) :
    minimax b (d + 1) alpha beta c n =
      (if generate_moves b c = [] then (evaluate_board b c, (n + 1) % U32_MOD)
       else match c with
       | Color.White => ab_max_loop (fun b2 a2 b3 n2 => minimax b2 d a2 b3 Color.Black n2)
           b beta (generate_moves b c) I32_MIN alpha ((n + 1) % U32_MOD)
       | Color.Black => ab_min_loop (fun b2 a2 b3 n2 => minimax b2 d a2 b3 Color.White n2)
           b alpha (generate_moves b c) I32_MAX beta ((n + 1) % U32_MOD)) := rfl

/-- Fail-soft alpha-beta window bound for the whole search: for any
window, the score returned by `minimax` lies between `min v beta` and
`max v alpha`, where `v` is the value of the cutoff-free recursion. -/
theorem minimax_km :
    ∀ (d : Nat) (b : Board) (c : Color) (alpha beta : Int) (n : Nat),
      I32_MIN ≤ alpha → beta ≤ I32_MAX → alpha < beta →
      min (minimax_no_ab b d c) beta ≤ (minimax b d alpha beta c n).1 ∧
        (minimax b d alpha beta c n).1 ≤ max (minimax_no_ab b d c) alpha := by
  intro d
  induction d with
  | zero =>
    intro b c alpha beta n halo hbeta hab
    rw [minimax_zero]
    unfold minimax_no_ab
    exact ⟨min_le_left _ _, le_max_left _ _⟩
  | succ d ih =>
    intro b c alpha beta n halo hbeta hab
    rw [minimax_succ]
    unfold minimax_no_ab
    by_cases hempty : generate_moves b c = []
    · rw [if_pos hempty, if_pos hempty]
      exact ⟨min_le_left _ _, le_max_left _ _⟩
    · rw [if_neg hempty, if_neg hempty]
      cases c
      · exact ab_max_loop_km
          (fun b2 a2 b3 n2 => minimax b2 d a2 b3 Color.Black n2)
          (fun b2 => minimax_no_ab b2 d Color.Black) b beta
          (fun b2 a2 b3 n2 ha hb hab2 => ih b2 Color.Black a2 b3 n2 ha hb hab2)
          hbeta (generate_moves b Color.White) I32_MIN alpha ((n + 1) % U32_MOD)
          halo hab (le_trans (by unfold I32_MIN; omega) halo)
      · exact ab_min_loop_km
          (fun b2 a2 b3 n2 => minimax b2 d a2 b3 Color.White n2)
          (fun b2 => minimax_no_ab b2 d Color.White) b alpha
          (fun b2 a2 b3 n2 ha hb hab2 => ih b2 Color.White a2 b3 n2 ha hb hab2)
          halo (generate_moves b Color.Black) I32_MAX beta ((n + 1) % U32_MOD)
          hbeta hab (le_trans hbeta (by unfold I32_MAX; omega))

/-- C2: over the full search window `(i32::MIN + 1, i32::MAX - 1)` used by
`find_best_move`, `Engine::minimax` computes exactly the value of the
identical recursion with the alpha-beta cutoff removed — pruning skips
branches but never changes the value at the root. -/
theorem c2_alphabeta_equals_minimax (b : Board) (d : Nat) (c : Color) (n : Nat) :
    (minimax b d (I32_MIN + 1) (I32_MAX - 1) c n).1 = minimax_no_ab b d c := by
  obtain ⟨h1, h2⟩ := minimax_km d b c (I32_MIN + 1) (I32_MAX - 1) n
    (by unfold I32_MIN; omega) (by unfold I32_MAX; omega)
    (by unfold I32_MIN I32_MAX; omega)
  obtain ⟨hb1, hb2⟩ := minimax_no_ab_bound d b c
  have hlt2 : minimax_no_ab b d c ≤ I32_MAX - 1 := by unfold I32_MAX; omega
  have hlt1 : I32_MIN + 1 ≤ minimax_no_ab b d c := by unfold I32_MIN; omega
  rw [min_eq_left hlt2] at h1
  rw [max_eq_left hlt1] at h2
  omega
